import Mathlib

/-!
Verification of the credit-risk fuzzy inference engine
(services/fuzzy_logic/engine.py and services/fuzzy_logic/visualization.py).

The Python code works on floats; the embedding models the arithmetic
exactly over the rationals.  Dictionaries become association lists,
the dictionary KeyError that a missing lookup would raise becomes a
None result (the evaluation functions return Option), and the set of
output variable names becomes a list of names.
-/

/-- Crisp input record handed to the engine: a total map from input
variable names to numbers (the Python code passes a dict whose three
keys are always present). -/
abbrev Inputs := String → ℚ

/-- Membership function shapes.  TriangularMF carries parameters a, b, c
and TrapezoidalMF carries a, b, c, d, exactly as in engine.py. -/
inductive MF where
  | tri (a b c : ℚ)
  | trap (a b c d : ℚ)
deriving DecidableEq

namespace MF

/-- Source translation of TriangularMF.evaluate and TrapezoidalMF.evaluate,
with the branches in the order the Python code tests them. -/
def evaluate : MF → ℚ → ℚ
  | tri a b c, x =>
      if x ≤ a ∨ c ≤ x then 0
      else if x = b then 1
      else if x < b then (x - a) / (b - a)
      else (c - x) / (c - b)
  | trap a b c d, x =>
      if x ≤ a ∨ d ≤ x then 0
      else if b ≤ x ∧ x ≤ c then 1
      else if x < b then (x - a) / (b - a)
      else (d - x) / (d - c)

/-- Source translation of TriangularMF.inverse and TrapezoidalMF.inverse,
the approximate inverses used for Tsukamoto defuzzification. -/
def inverse : MF → ℚ → ℚ
  | tri a b c, y =>
      if y = 0 then b
      else if y ≤ 1 then ((a + y * (b - a)) + (c - y * (c - b))) / 2
      else b
  | trap a b c d, y =>
      if y = 0 then (b + c) / 2
      else if y = 1 then (b + c) / 2
      else if y < 1 then ((a + y * (b - a)) + (d - y * (d - c))) / 2
      else (b + c) / 2

end MF

/-- FuzzyVariable: a name, a numeric range and a name-keyed collection of
membership functions (the Python dict becomes an association list that
preserves insertion order). -/
structure FuzzyVariable where
  name : String
  range_min : ℚ
  range_max : ℚ
  mfs : List (String × MF)
deriving DecidableEq

/-- Source translation of FuzzyVariable.add_membership_function (dict
insertion becomes an append, keys are never duplicated by the builder). -/
def FuzzyVariable.add_membership_function (v : FuzzyVariable) (n : String) (m : MF) :
    FuzzyVariable :=
  { v with mfs := v.mfs ++ [(n, m)] }

/-- Evaluation of one named term of a variable.  The Python code indexes
the dict directly (membership_functions[name].evaluate(x)); in the fixed
rule base every such lookup succeeds, so the None branch is dead code kept
only to make the function total. -/
def FuzzyVariable.termEval (v : FuzzyVariable) (t : String) (x : ℚ) : ℚ :=
  match List.lookup t v.mfs with
  | some m => m.evaluate x
  | none => 0

/-- FuzzyRule: an opaque antecedent closure plus a consequent
(variable name, term name) pair, as in engine.py. -/
structure FuzzyRule where
  antecedent_func : Inputs → ℚ
  consequent_var : String
  consequent_term : String

/-- Source translation of FuzzyRule.evaluate. -/
def FuzzyRule.evaluate (r : FuzzyRule) (inputs : Inputs) : ℚ :=
  r.antecedent_func inputs

/-- TsukamotoFIS state: variables dict, ordered rule list, output name set
(modelled as the list of names in insertion order). -/
structure TsukamotoFIS where
  vars : List (String × FuzzyVariable)
  rules : List FuzzyRule
  output_variables : List String

namespace TsukamotoFIS

/-- Fresh engine, as built by the TsukamotoFIS constructor. -/
def empty : TsukamotoFIS := ⟨[], [], []⟩

/-- Source translation of TsukamotoFIS.add_variable. -/
def add_variable (fis : TsukamotoFIS) (v : FuzzyVariable) (is_output : Bool) :
    TsukamotoFIS :=
  { fis with
    vars := fis.vars ++ [(v.name, v)]
    output_variables :=
      if is_output then fis.output_variables ++ [v.name] else fis.output_variables }

/-- Source translation of TsukamotoFIS.add_rule: the rule is appended,
no validation of any kind is performed. -/
def add_rule (fis : TsukamotoFIS) (r : FuzzyRule) : TsukamotoFIS :=
  { fis with rules := fis.rules ++ [r] }

/-- The double dictionary lookup variables[v].membership_functions[t]
performed inside TsukamotoFIS.evaluate; None models the KeyError. -/
def lookupMF (fis : TsukamotoFIS) (v t : String) : Option MF :=
  match List.lookup v fis.vars with
  | some fv => List.lookup t fv.mfs
  | none => none

end TsukamotoFIS

/-- The guard of the aggregation loop body in TsukamotoFIS.evaluate:
rule.consequent_var == output_var and firing_strength > 0. -/
def ruleFires (inputs : Inputs) (v : String) (r : FuzzyRule) : Bool :=
  decide (r.consequent_var = v) && decide (0 < r.evaluate inputs)

namespace TsukamotoFIS

/-- One iteration of the aggregation loop of TsukamotoFIS.evaluate for a
fixed output variable: the accumulator carries (weighted_sum, weight_sum)
and becomes None when the consequent term lookup would raise KeyError. -/
def evalStep (fis : TsukamotoFIS) (inputs : Inputs) (v : String)
    (acc : Option (ℚ × ℚ)) (r : FuzzyRule) : Option (ℚ × ℚ) :=
  acc.bind fun ws_w =>
    if ruleFires inputs v r then
      (fis.lookupMF v r.consequent_term).map fun m =>
        (ws_w.1 + m.inverse (r.evaluate inputs) * r.evaluate inputs,
         ws_w.2 + r.evaluate inputs)
    else some ws_w

/-- The per-output-variable part of TsukamotoFIS.evaluate: accumulate
weighted_sum and weight_sum over all rules, then divide, falling back to
the midpoint of the declared range when weight_sum is not positive. -/
def evalOutput (fis : TsukamotoFIS) (inputs : Inputs) (v : String) : Option ℚ :=
  (fis.rules.foldl (fis.evalStep inputs v) (some (0, 0))).bind fun ws_w =>
    if 0 < ws_w.2 then some (ws_w.1 / ws_w.2)
    else (List.lookup v fis.vars).map fun fv => (fv.range_min + fv.range_max) / 2

/-- Source translation of TsukamotoFIS.evaluate: the result dict holds one
entry per output variable. -/
def evaluate (fis : TsukamotoFIS) (inputs : Inputs) : List (String × Option ℚ) :=
  fis.output_variables.map fun v => (v, fis.evalOutput inputs v)

end TsukamotoFIS

/-- Income variable of create_credit_risk_fis, 0 to 20 million IDR. -/
def incomeVar : FuzzyVariable :=
  (((FuzzyVariable.mk "income" 0 20000000 []).add_membership_function
      "low" (.trap 0 0 2500000 3000000)).add_membership_function
      "medium" (.tri 2500000 5000000 7000000)).add_membership_function
      "high" (.trap 6500000 7000000 20000000 20000000)

/-- Dependents variable of create_credit_risk_fis. -/
def dependentsVar : FuzzyVariable :=
  (((FuzzyVariable.mk "dependents" 0 10 []).add_membership_function
      "few" (.trap 0 0 1 2)).add_membership_function
      "average" (.tri 1 2 3)).add_membership_function
      "many" (.trap 3 4 10 10)

/-- Credit history variable of create_credit_risk_fis, 0 poor to 10 excellent. -/
def creditHistoryVar : FuzzyVariable :=
  (((FuzzyVariable.mk "credit_history" 0 10 []).add_membership_function
      "poor" (.trap 0 0 3 4)).add_membership_function
      "average" (.tri 3 5 7)).add_membership_function
      "good" (.trap 6 7 10 10)

/-- Risk output variable of create_credit_risk_fis, 0 low to 100 high. -/
def riskVar : FuzzyVariable :=
  (((FuzzyVariable.mk "risk" 0 100 []).add_membership_function
      "low" (.trap 0 0 30 40)).add_membership_function
      "medium" (.tri 30 50 70)).add_membership_function
      "high" (.trap 60 70 100 100)

/-- Eligibility output variable of create_credit_risk_fis. -/
def eligibilityVar : FuzzyVariable :=
  (((FuzzyVariable.mk "eligibility" 0 100 []).add_membership_function
      "not_eligible" (.trap 0 0 30 40)).add_membership_function
      "under_consideration" (.tri 30 50 70)).add_membership_function
      "eligible" (.trap 60 70 100 100)

/-- Antecedent shared by rules 1 and 2:
min(income.high, dependents.few, credit.good). -/
def rule1_antecedent (inputs : Inputs) : ℚ :=
  let income_high := incomeVar.termEval "high" (inputs "income")
  let dependents_few := dependentsVar.termEval "few" (inputs "dependents")
  let credit_good := creditHistoryVar.termEval "good" (inputs "credit_history")
  min income_high (min dependents_few credit_good)

/-- Antecedent shared by rules 3 and 4:
min(income.medium, dependents.average, credit.average). -/
def rule3_antecedent (inputs : Inputs) : ℚ :=
  let income_medium := incomeVar.termEval "medium" (inputs "income")
  let dependents_avg := dependentsVar.termEval "average" (inputs "dependents")
  let credit_avg := creditHistoryVar.termEval "average" (inputs "credit_history")
  min income_medium (min dependents_avg credit_avg)

/-- Antecedent shared by rules 5 and 6:
max(income.low, dependents.many, credit.poor). -/
def rule5_antecedent (inputs : Inputs) : ℚ :=
  let income_low := incomeVar.termEval "low" (inputs "income")
  let dependents_many := dependentsVar.termEval "many" (inputs "dependents")
  let credit_poor := creditHistoryVar.termEval "poor" (inputs "credit_history")
  max income_low (max dependents_many credit_poor)

/-- Rule 1 of the fixed rule base. -/
def rule1 : FuzzyRule := ⟨rule1_antecedent, "eligibility", "eligible"⟩

/-- Rule 2 of the fixed rule base (shares the antecedent of rule 1). -/
def rule2 : FuzzyRule := ⟨rule1_antecedent, "risk", "low"⟩

/-- Rule 3 of the fixed rule base. -/
def rule3 : FuzzyRule := ⟨rule3_antecedent, "eligibility", "under_consideration"⟩

/-- Rule 4 of the fixed rule base (shares the antecedent of rule 3). -/
def rule4 : FuzzyRule := ⟨rule3_antecedent, "risk", "medium"⟩

/-- Rule 5 of the fixed rule base. -/
def rule5 : FuzzyRule := ⟨rule5_antecedent, "eligibility", "not_eligible"⟩

/-- Rule 6 of the fixed rule base (shares the antecedent of rule 5). -/
def rule6 : FuzzyRule := ⟨rule5_antecedent, "risk", "high"⟩

/-- Source translation of create_credit_risk_fis: the five variables and
six rules added in source order. -/
def create_credit_risk_fis : TsukamotoFIS :=
  ((((((((((TsukamotoFIS.empty.add_variable incomeVar false).add_variable
      dependentsVar false).add_variable creditHistoryVar false).add_variable
      riskVar true).add_variable eligibilityVar true).add_rule
      rule1).add_rule rule2).add_rule rule3).add_rule rule4).add_rule
      rule5).add_rule rule6

/-- Source translation of evaluate_credit_risk: build the engine, evaluate
it on the three-key input dict, and return the risk and eligibility
entries of the result. -/
def evaluate_credit_risk (income dependents credit_history_rating : ℚ) :
    Option ℚ × Option ℚ :=
  let fis := create_credit_risk_fis
  let inputs : Inputs := fun s =>
    if s = "income" then income
    else if s = "dependents" then dependents
    else if s = "credit_history" then credit_history_rating
    else 0
  (fis.evalOutput inputs "risk", fis.evalOutput inputs "eligibility")

/-- Model of numpy.linspace(a, b, n) with endpoint=True over the
rationals: empty for n = 0, the single point a for n = 1, and otherwise
n evenly spaced points from a to b inclusive. -/
def linspace (a b : ℚ) (n : ℕ) : List ℚ :=
  if n = 0 then []
  else if n = 1 then [a]
  else (List.range n).map fun (i : ℕ) => a + (i : ℚ) * (b - a) / ((n : ℚ) - 1)

/-- Source translation of generate_membership_function_data from
visualization.py: ValueError becomes an error value, every sampled x
carries the degree of every term of the variable. -/
def generate_membership_function_data (variable_name : String) (num_points : ℕ) :
    Except String (List (ℚ × List (String × ℚ))) :=
  match List.lookup variable_name create_credit_risk_fis.vars with
  | none => Except.error ("Variable " ++ variable_name ++ " not found in FIS")
  | some fv =>
      Except.ok ((linspace fv.range_min fv.range_max num_points).map fun xv =>
        (xv, fv.mfs.map fun q => (q.1, q.2.evaluate xv)))

/-- All membership functions owned by the five variables of the fixed
credit-risk rule base. -/
def allCreditMFs : List MF :=
  create_credit_risk_fis.vars.flatMap fun p => p.2.mfs.map fun q => q.2

/-- The rules of a fixed output variable whose firing strength is
strictly positive: the set the aggregation loop actually sums over. -/
def firedRules (fis : TsukamotoFIS) (inputs : Inputs) (v : String) :
    List FuzzyRule :=
  fis.rules.filter (ruleFires inputs v)

/-- Crisp value the aggregation loop derives from one rule: the inverse of
the consequent term membership function at the firing strength (0 stands
in for the KeyError case, which the theorems exclude by hypothesis). -/
def crispOf (fis : TsukamotoFIS) (inputs : Inputs) (v : String) (r : FuzzyRule) : ℚ :=
  match fis.lookupMF v r.consequent_term with
  | some m => m.inverse (r.evaluate inputs)
  | none => 0

/-- Division safety of one membership function at one point: whenever
control reaches a ramp branch of MF.evaluate, the divisor of that branch
is nonzero. -/
def MF.divSafeAt : MF → ℚ → Prop
  | MF.tri a b c, x =>
      (¬(x ≤ a ∨ c ≤ x) → x ≠ b → x < b → b - a ≠ 0) ∧
      (¬(x ≤ a ∨ c ≤ x) → x ≠ b → ¬x < b → c - b ≠ 0)
  | MF.trap a b c d, x =>
      (¬(x ≤ a ∨ d ≤ x) → ¬(b ≤ x ∧ x ≤ c) → x < b → b - a ≠ 0) ∧
      (¬(x ≤ a ∨ d ≤ x) → ¬(b ≤ x ∧ x ≤ c) → ¬x < b → d - c ≠ 0)

/-- All-zero input record used to instantiate universally quantified
theorems at a concrete point. -/
def zeroInputs : Inputs := fun _ => 0

/-- A rule whose consequent term does not exist on the risk variable, used
to exercise the missing-validation path of the builder. -/
def badRule : FuzzyRule := ⟨fun _ => 1, "risk", "missing_term"⟩

/-- The credit-risk rule list with its first two rules transposed. -/
def creditRulesSwapped : List FuzzyRule :=
  [rule2, rule1, rule3, rule4, rule5, rule6]

/-- Every membership degree the code can produce lies in the unit
interval, for any parameters: the ramp branches are only reached under
guards that make numerator and denominator positive with numerator below
denominator. -/
theorem MF.evaluate_mem_unit (m : MF) (x : ℚ) :
    0 ≤ m.evaluate x ∧ m.evaluate x ≤ 1 := by
  cases m with
  | tri a b c =>
    simp only [MF.evaluate]
    split_ifs with h1 h2 h3
    · norm_num
    · norm_num
    · push_neg at h1
      refine ⟨div_nonneg (by linarith [h1.1]) (by linarith [h1.1]), ?_⟩
      rw [div_le_one (by linarith [h1.1])]
      linarith
    · push_neg at h1 h3
      have hbx : b < x := lt_of_le_of_ne h3 (Ne.symm h2)
      refine ⟨div_nonneg (by linarith [h1.2]) (by linarith [h1.2]), ?_⟩
      rw [div_le_one (by linarith [h1.2])]
      linarith
  | trap a b c d =>
    simp only [MF.evaluate]
    split_ifs with h1 h2 h3
    · norm_num
    · norm_num
    · push_neg at h1
      refine ⟨div_nonneg (by linarith [h1.1]) (by linarith [h1.1]), ?_⟩
      rw [div_le_one (by linarith [h1.1])]
      linarith
    · push_neg at h1 h2 h3
      have hcx : c < x := h2 h3
      refine ⟨div_nonneg (by linarith [h1.2]) (by linarith [h1.2]), ?_⟩
      rw [div_le_one (by linarith [h1.2])]
      linarith

/-- The term evaluation helper always yields a degree in the unit
interval. -/
theorem FuzzyVariable.termEval_mem (v : FuzzyVariable) (t : String) (x : ℚ) :
    0 ≤ v.termEval t x ∧ v.termEval t x ≤ 1 := by
  unfold FuzzyVariable.termEval
  cases List.lookup t v.mfs with
  | none => norm_num
  | some m => exact MF.evaluate_mem_unit m x

/-- The conjunctive antecedent of rules 1 and 2 stays in the unit
interval. -/
theorem rule1_antecedent_mem (inputs : Inputs) :
    0 ≤ rule1_antecedent inputs ∧ rule1_antecedent inputs ≤ 1 := by
  unfold rule1_antecedent
  have h1 := incomeVar.termEval_mem "high" (inputs "income")
  have h2 := dependentsVar.termEval_mem "few" (inputs "dependents")
  have h3 := creditHistoryVar.termEval_mem "good" (inputs "credit_history")
  exact ⟨le_min h1.1 (le_min h2.1 h3.1), le_trans (min_le_left _ _) h1.2⟩

/-- The conjunctive antecedent of rules 3 and 4 stays in the unit
interval. -/
theorem rule3_antecedent_mem (inputs : Inputs) :
    0 ≤ rule3_antecedent inputs ∧ rule3_antecedent inputs ≤ 1 := by
  unfold rule3_antecedent
  have h1 := incomeVar.termEval_mem "medium" (inputs "income")
  have h2 := dependentsVar.termEval_mem "average" (inputs "dependents")
  have h3 := creditHistoryVar.termEval_mem "average" (inputs "credit_history")
  exact ⟨le_min h1.1 (le_min h2.1 h3.1), le_trans (min_le_left _ _) h1.2⟩

/-- The disjunctive antecedent of rules 5 and 6 stays in the unit
interval. -/
theorem rule5_antecedent_mem (inputs : Inputs) :
    0 ≤ rule5_antecedent inputs ∧ rule5_antecedent inputs ≤ 1 := by
  unfold rule5_antecedent
  have h1 := incomeVar.termEval_mem "low" (inputs "income")
  have h2 := dependentsVar.termEval_mem "many" (inputs "dependents")
  have h3 := creditHistoryVar.termEval_mem "poor" (inputs "credit_history")
  exact ⟨le_trans h1.1 (le_max_left _ _), max_le h1.2 (max_le h2.2 h3.2)⟩

/-- The triangular inverse stays within the triangle support for degrees
in the unit interval. -/
theorem MF.tri_inverse_mem (a b c y : ℚ) (hab : a ≤ b) (hbc : b ≤ c)
    (hy0 : 0 ≤ y) (hy1 : y ≤ 1) :
    a ≤ (MF.tri a b c).inverse y ∧ (MF.tri a b c).inverse y ≤ c := by
  simp only [MF.inverse]
  split_ifs with h1
  · exact ⟨hab, hbc⟩
  · have g1 : 0 ≤ y * (b - a) := mul_nonneg hy0 (by linarith)
    have g2 : y * (b - a) ≤ b - a := by nlinarith
    have g3 : 0 ≤ y * (c - b) := mul_nonneg hy0 (by linarith)
    have g4 : y * (c - b) ≤ c - b := by nlinarith
    constructor <;> linarith

/-- The trapezoidal inverse stays within the trapezoid support for
degrees in the unit interval. -/
theorem MF.trap_inverse_mem (a b c d y : ℚ) (hab : a ≤ b) (hbc : b ≤ c)
    (hcd : c ≤ d) (hy0 : 0 ≤ y) (hy1 : y ≤ 1) :
    a ≤ (MF.trap a b c d).inverse y ∧ (MF.trap a b c d).inverse y ≤ d := by
  simp only [MF.inverse]
  split_ifs with h1 h2 h3
  · constructor <;> linarith
  · constructor <;> linarith
  · have g1 : 0 ≤ y * (b - a) := mul_nonneg hy0 (by linarith)
    have g2 : y * (b - a) ≤ b - a := by nlinarith
    have g3 : 0 ≤ y * (d - c) := mul_nonneg hy0 (by linarith)
    have g4 : y * (d - c) ≤ d - c := by nlinarith
    constructor <;> linarith
  · have : y = 1 := le_antisymm hy1 (not_lt.mp h3)
    exact absurd this h2

/-- Reaching a ramp branch of MF.evaluate forces the corresponding
divisor to be nonzero, for any parameters. -/
theorem MF.divSafeAt_all (m : MF) (x : ℚ) : m.divSafeAt x := by
  cases m with
  | tri a b c =>
    constructor
    · intro h1 h2 h3
      push_neg at h1
      exact sub_ne_zero.mpr (ne_of_gt (lt_trans h1.1 h3))
    · intro h1 h2 h3
      push_neg at h1
      have hbx : b < x := lt_of_le_of_ne (not_lt.mp h3) (Ne.symm h2)
      exact sub_ne_zero.mpr (ne_of_gt (lt_trans hbx h1.2))
  | trap a b c d =>
    constructor
    · intro h1 h2 h3
      push_neg at h1
      exact sub_ne_zero.mpr (ne_of_gt (lt_trans h1.1 h3))
    · intro h1 h2 h3
      push_neg at h1 h2
      exact sub_ne_zero.mpr (ne_of_gt (lt_trans (h2 (not_lt.mp h3)) h1.2))

/-- C2: the approximate inverses follow the spec formulas: a triangular
inverse returns b at degree 0, the average of the rising-edge and
falling-edge solutions for degrees in (0,1], and b for degrees above 1;
a trapezoidal inverse returns the plateau midpoint (b+c)/2 at degrees 0,
1 and above 1, and the average of the two edge estimates for degrees
strictly between 0 and 1. -/
theorem C2_inverse_formulas (a b c d y : ℚ) (hab : a ≤ b) (hbc : b ≤ c)
    (hcd : c ≤ d) :
    ((y = 0 → (MF.tri a b c).inverse y = b) ∧
     (0 < y → y ≤ 1 →
       (MF.tri a b c).inverse y = ((a + y * (b - a)) + (c - y * (c - b))) / 2) ∧
     (1 < y → (MF.tri a b c).inverse y = b)) ∧
    (((y = 0 ∨ y = 1 ∨ 1 < y) → (MF.trap a b c d).inverse y = (b + c) / 2) ∧
     (0 < y → y < 1 →
       (MF.trap a b c d).inverse y = ((a + y * (b - a)) + (d - y * (d - c))) / 2)) := by
  refine ⟨⟨fun h0 => ?_, fun hpos hle => ?_, fun hgt => ?_⟩,
    fun h => ?_, fun hpos hlt => ?_⟩
  · simp [MF.inverse, h0]
  · simp only [MF.inverse]
    rw [if_neg (ne_of_gt hpos), if_pos hle]
  · have hne : y ≠ 0 := by intro h; rw [h] at hgt; norm_num at hgt
    simp only [MF.inverse]
    rw [if_neg hne, if_neg (not_le.mpr hgt)]
  · rcases h with h0 | h1 | hgt
    · simp [MF.inverse, h0]
    · simp [MF.inverse, h1]
    · have hne0 : y ≠ 0 := by intro h; rw [h] at hgt; norm_num at hgt
      have hne1 : y ≠ 1 := ne_of_gt hgt
      simp only [MF.inverse]
      rw [if_neg hne0, if_neg hne1, if_neg (not_lt.mpr (le_of_lt hgt))]
  · simp only [MF.inverse]
    rw [if_neg (ne_of_gt hpos), if_neg (ne_of_lt hlt), if_pos hlt]

/-- Witness for C2: the triangular inverse at degree one half on the
triangle (0,1,2) equals the average of the two edge solutions. -/
theorem C2_inverse_formulas_witness :
    (MF.tri 0 1 2).inverse (1/2) =
      ((0 + (1/2 : ℚ) * (1 - 0)) + (2 - (1/2 : ℚ) * (2 - 1))) / 2 :=
  (C2_inverse_formulas 0 1 2 3 (1/2) (by norm_num) (by norm_num)
    (by norm_num)).1.2.1 (by norm_num) (by norm_num)

/-- Counterexample for C3: on the trapezoid (0,0,1,2) of the dependents
variable, the point x = 0 satisfies the claimed plateau condition
b ≤ x ≤ c and x < d (with ordered parameters 0 ≤ 0 ≤ 1 ≤ 2), yet the
code returns 0, not 1, because the branch x ≤ a wins first. -/
theorem C3_counterexample :
    ((0:ℚ) ≤ 0 ∧ (0:ℚ) ≤ 1 ∧ (1:ℚ) ≤ 2) ∧
    ((0:ℚ) ≤ 0 ∧ (0:ℚ) ≤ 1 ∧ (0:ℚ) < 2) ∧
    (MF.trap 0 0 1 2).evaluate 0 = 0 ∧ ¬(MF.trap 0 0 1 2).evaluate 0 = 1 := by
  decide

/-- C3 as amended: the piecewise description holds once the unit branches
carry the priority of the zero branch, that is the plateau and peak cases
additionally require a < x (and x < c for the triangle peak), exactly as
the ordered guards of the code impose. -/
theorem C3_piecewise_evaluation (a b c d x : ℚ) (hab : a ≤ b) (hbc : b ≤ c)
    (hcd : c ≤ d) :
    ((x ≤ a ∨ c ≤ x → (MF.tri a b c).evaluate x = 0) ∧
     (a < x → x < c → x = b → (MF.tri a b c).evaluate x = 1) ∧
     (a < x → x < b → (MF.tri a b c).evaluate x = (x - a) / (b - a)) ∧
     (b < x → x < c → (MF.tri a b c).evaluate x = (c - x) / (c - b))) ∧
    ((x ≤ a ∨ d ≤ x → (MF.trap a b c d).evaluate x = 0) ∧
     (a < x → x < d → b ≤ x → x ≤ c → (MF.trap a b c d).evaluate x = 1) ∧
     (a < x → x < b → (MF.trap a b c d).evaluate x = (x - a) / (b - a)) ∧
     (c < x → x < d → (MF.trap a b c d).evaluate x = (d - x) / (d - c))) := by
  refine ⟨⟨fun h => ?_, fun hax hxc hxb => ?_, fun hax hxb => ?_,
    fun hbx hxc => ?_⟩, ⟨fun h => ?_, fun hax hxd hbx hxc => ?_,
    fun hax hxb => ?_, fun hcx hxd => ?_⟩⟩
  · simp only [MF.evaluate]; rw [if_pos h]
  · simp only [MF.evaluate]
    rw [if_neg (by rintro (h | h) <;> linarith), if_pos hxb]
  · simp only [MF.evaluate]
    rw [if_neg (by rintro (h | h) <;> linarith), if_neg (ne_of_lt hxb),
      if_pos hxb]
  · simp only [MF.evaluate]
    rw [if_neg (by rintro (h | h) <;> linarith), if_neg (ne_of_gt hbx),
      if_neg (not_lt.mpr (le_of_lt hbx))]
  · simp only [MF.evaluate]; rw [if_pos h]
  · simp only [MF.evaluate]
    rw [if_neg (by rintro (h | h) <;> linarith), if_pos ⟨hbx, hxc⟩]
  · simp only [MF.evaluate]
    rw [if_neg (by rintro (h | h) <;> linarith),
      if_neg (by rintro ⟨h, _⟩; linarith), if_pos hxb]
  · simp only [MF.evaluate]
    rw [if_neg (by rintro (h | h) <;> linarith),
      if_neg (by rintro ⟨_, h⟩; linarith),
      if_neg (not_lt.mpr (by linarith))]

/-- Witness for C3 as amended: the triangle (0,1,2) evaluates to 1 at its
peak x = 1, which satisfies the strengthened peak condition. -/
theorem C3_piecewise_evaluation_witness : (MF.tri 0 1 2).evaluate 1 = 1 :=
  (C3_piecewise_evaluation 0 1 2 3 1 (by norm_num) (by norm_num)
    (by norm_num)).1.2.1 (by norm_num) (by norm_num) rfl

/-- Counterexample for C6: the income term high is the trapezoid
(6.5M, 7M, 20M, 20M) of the rule base; at the right endpoint
x = c = d = 20000000 the plateau condition b ≤ x ≤ c holds, yet the code
returns 0, not 1, because the branch x ≥ d wins first. -/
theorem C6_counterexample :
    MF.trap 6500000 7000000 20000000 20000000 ∈ allCreditMFs ∧
    ((7000000:ℚ) ≤ 20000000 ∧ (20000000:ℚ) ≤ 20000000) ∧
    (MF.trap 6500000 7000000 20000000 20000000).evaluate 20000000 = 0 ∧
    ¬(MF.trap 6500000 7000000 20000000 20000000).evaluate 20000000 = 1 := by
  decide

/-- C6 as amended: every trapezoid of the credit-risk rule base evaluates
to 1 on the part of the plateau b ≤ x ≤ c that also satisfies a < x and
x < d; at a degenerate endpoint such as x = c = d the code returns 0
instead (see the counterexample). -/
theorem C6_plateau_open_guard (m : MF) (hm : m ∈ allCreditMFs) (a b c d : ℚ)
    (hshape : m = MF.trap a b c d) (x : ℚ) (hbx : b ≤ x) (hxc : x ≤ c)
    (hax : a < x) (hxd : x < d) : m.evaluate x = 1 := by
  subst hshape
  simp only [MF.evaluate]
  rw [if_neg (by rintro (h | h) <;> linarith), if_pos ⟨hbx, hxc⟩]

/-- Witness for C6 as amended: the risk term low, the trapezoid
(0,0,30,40) of the rule base, evaluates to 1 at x = 15. -/
theorem C6_plateau_open_guard_witness : (MF.trap 0 0 30 40).evaluate 15 = 1 :=
  C6_plateau_open_guard _ (by decide) 0 0 30 40 rfl 15 (by norm_num)
    (by norm_num) (by norm_num) (by norm_num)

/-- C10: every membership function owned by the five variables of the
fixed rule base is division-safe at every rational point, in the sense
that a ramp branch is only ever reached with a nonzero divisor, and every
degree it returns lies in the unit interval. -/
theorem C10_division_safety (m : MF) (hm : m ∈ allCreditMFs) (x : ℚ) :
    m.divSafeAt x ∧ 0 ≤ m.evaluate x ∧ m.evaluate x ≤ 1 :=
  ⟨MF.divSafeAt_all m x, (MF.evaluate_mem_unit m x).1,
    (MF.evaluate_mem_unit m x).2⟩

/-- Witness for C10: the degenerate-edge trapezoid low of the income
variable, at the point x = 0 where its left edge has zero width. -/
theorem C10_division_safety_witness :
    (MF.trap 0 0 2500000 3000000).divSafeAt 0 ∧
    0 ≤ (MF.trap 0 0 2500000 3000000).evaluate 0 ∧
    (MF.trap 0 0 2500000 3000000).evaluate 0 ≤ 1 :=
  C10_division_safety (MF.trap 0 0 2500000 3000000) (by decide) 0

/-- Convenient restatement of the loop guard as a proposition. -/
theorem ruleFires_iff (inputs : Inputs) (v : String) (r : FuzzyRule) :
    ruleFires inputs v r = true ↔
      (r.consequent_var = v ∧ 0 < r.evaluate inputs) := by
  simp [ruleFires]

/-- Once the accumulator of the aggregation loop is poisoned, it stays
poisoned. -/
theorem foldl_evalStep_none (fis : TsukamotoFIS) (inputs : Inputs) (v : String)
    (rs : List FuzzyRule) :
    rs.foldl (fis.evalStep inputs v) none = none := by
  induction rs with
  | nil => rfl
  | cons r rs ih => rw [List.foldl_cons]; exact ih

/-- Unrolled form of the aggregation loop when every fired rule resolves
its consequent membership function: the accumulator ends at the pair of
sums over the fired rules. -/
theorem foldl_evalStep_some (fis : TsukamotoFIS) (inputs : Inputs) (v : String) :
    ∀ (rs : List FuzzyRule) (acc : ℚ × ℚ),
      (∀ r ∈ rs.filter (ruleFires inputs v),
        (fis.lookupMF v r.consequent_term).isSome) →
      rs.foldl (fis.evalStep inputs v) (some acc) =
        some (acc.1 + ((rs.filter (ruleFires inputs v)).map
                (fun r => crispOf fis inputs v r * r.evaluate inputs)).sum,
              acc.2 + ((rs.filter (ruleFires inputs v)).map
                (fun r => r.evaluate inputs)).sum) := by
  intro rs
  induction rs with
  | nil => intro acc _; simp
  | cons r rs ih =>
    intro acc h
    by_cases hf : ruleFires inputs v r
    · have hr : r ∈ (r :: rs).filter (ruleFires inputs v) := by
        rw [List.filter_cons_of_pos hf]
        exact List.mem_cons_self _ _
      obtain ⟨m, hm⟩ := Option.isSome_iff_exists.mp (h r hr)
      have hstep : fis.evalStep inputs v (some acc) r =
          some (acc.1 + m.inverse (r.evaluate inputs) * r.evaluate inputs,
                acc.2 + r.evaluate inputs) := by
        simp [TsukamotoFIS.evalStep, hf, hm]
      have htail : ∀ r2 ∈ rs.filter (ruleFires inputs v),
          (fis.lookupMF v r2.consequent_term).isSome := by
        intro r2 h2
        have hmem : r2 ∈ (r :: rs).filter (ruleFires inputs v) := by
          rw [List.filter_cons_of_pos hf]
          exact List.mem_cons_of_mem _ h2
        exact h r2 hmem
      rw [List.foldl_cons, hstep, ih _ htail, List.filter_cons_of_pos hf]
      have hcr : crispOf fis inputs v r = m.inverse (r.evaluate inputs) := by
        simp [crispOf, hm]
      simp only [List.map_cons, List.sum_cons, hcr, Option.some.injEq,
        Prod.mk.injEq]
      constructor <;> ring
    · have hstep : fis.evalStep inputs v (some acc) r = some acc := by
        simp [TsukamotoFIS.evalStep, hf]
      rw [List.foldl_cons, hstep, List.filter_cons_of_neg hf]
      apply ih
      intro r2 h2
      have hmem : r2 ∈ (r :: rs).filter (ruleFires inputs v) := by
        rw [List.filter_cons_of_neg hf]
        exact h2
      exact h r2 hmem

/-- Every fired rule carries a strictly positive firing strength, so the
sum of the weights over a nonempty fired set is strictly positive. -/
theorem fired_weight_sum_pos (fis : TsukamotoFIS) (inputs : Inputs) (v : String)
    (hS : firedRules fis inputs v ≠ []) :
    0 < ((firedRules fis inputs v).map (fun r => r.evaluate inputs)).sum := by
  apply List.sum_pos
  · intro q hq
    obtain ⟨r, hr, rfl⟩ := List.mem_map.mp hq
    exact ((ruleFires_iff inputs v r).mp (List.mem_filter.mp hr).2).2
  · intro h
    exact hS (List.map_eq_nil_iff.mp h)

/-- When no rule with the given consequent variable fires, the code
falls back to the midpoint of the declared range of that variable. -/
theorem evalOutput_eq_empty (fis : TsukamotoFIS) (inputs : Inputs) (v : String)
    (hS : firedRules fis inputs v = []) :
    fis.evalOutput inputs v =
      (List.lookup v fis.vars).map fun fv => (fv.range_min + fv.range_max) / 2 := by
  unfold TsukamotoFIS.evalOutput
  have hS2 : fis.rules.filter (ruleFires inputs v) = [] := hS
  have hall : ∀ r ∈ fis.rules.filter (ruleFires inputs v),
      (fis.lookupMF v r.consequent_term).isSome := by
    rw [hS2]
    intro r hr
    cases hr
  rw [foldl_evalStep_some fis inputs v fis.rules (0, 0) hall]
  simp [hS2]

/-- When the fired set is nonempty and every fired rule resolves its
membership function, the result is the quotient of the accumulated
sums. -/
theorem evalOutput_eq_sums (fis : TsukamotoFIS) (inputs : Inputs) (v : String)
    (h : ∀ r ∈ firedRules fis inputs v,
      (fis.lookupMF v r.consequent_term).isSome)
    (hS : firedRules fis inputs v ≠ []) :
    fis.evalOutput inputs v =
      some (((firedRules fis inputs v).map
          (fun r => crispOf fis inputs v r * r.evaluate inputs)).sum /
        ((firedRules fis inputs v).map (fun r => r.evaluate inputs)).sum) := by
  unfold TsukamotoFIS.evalOutput
  rw [foldl_evalStep_some fis inputs v fis.rules (0, 0) h]
  have hpos := fired_weight_sum_pos fis inputs v hS
  rw [Option.some_bind]
  have hc : 0 < ((0, 0) : ℚ × ℚ).2 + ((fis.rules.filter (ruleFires inputs v)).map
      (fun r => r.evaluate inputs)).sum := by
    simpa [firedRules] using hpos
  rw [if_pos hc]
  simp [firedRules]

/-- The per-output evaluation fails (models the KeyError) when some fired
rule does not resolve its consequent membership function. -/
theorem foldl_evalStep_fail (fis : TsukamotoFIS) (inputs : Inputs) (v : String) :
    ∀ (rs : List FuzzyRule) (acc : ℚ × ℚ),
      (∃ r ∈ rs.filter (ruleFires inputs v),
        fis.lookupMF v r.consequent_term = none) →
      rs.foldl (fis.evalStep inputs v) (some acc) = none := by
  intro rs
  induction rs with
  | nil => intro acc h; simp at h
  | cons r rs ih =>
    intro acc h
    by_cases hf : ruleFires inputs v r
    · cases hlk : fis.lookupMF v r.consequent_term with
      | none =>
        have hstep : fis.evalStep inputs v (some acc) r = none := by
          simp [TsukamotoFIS.evalStep, hf, hlk]
        rw [List.foldl_cons, hstep, foldl_evalStep_none]
      | some m =>
        have hstep : fis.evalStep inputs v (some acc) r =
            some (acc.1 + m.inverse (r.evaluate inputs) * r.evaluate inputs,
                  acc.2 + r.evaluate inputs) := by
          simp [TsukamotoFIS.evalStep, hf, hlk]
        rw [List.foldl_cons, hstep]
        apply ih
        obtain ⟨r2, hr2, hn2⟩ := h
        rw [List.filter_cons_of_pos hf] at hr2
        rcases List.mem_cons.mp hr2 with rfl | hmem
        · rw [hlk] at hn2; cases hn2
        · exact ⟨r2, hmem, hn2⟩
    · have hstep : fis.evalStep inputs v (some acc) r = some acc := by
        simp [TsukamotoFIS.evalStep, hf]
      rw [List.foldl_cons, hstep]
      apply ih
      obtain ⟨r2, hr2, hn2⟩ := h
      rw [List.filter_cons_of_neg hf] at hr2
      exact ⟨r2, hr2, hn2⟩

/-- The per-output evaluation is None exactly in the KeyError situation. -/
theorem evalOutput_none_of (fis : TsukamotoFIS) (inputs : Inputs) (v : String)
    (h : ∃ r ∈ firedRules fis inputs v,
      fis.lookupMF v r.consequent_term = none) :
    fis.evalOutput inputs v = none := by
  unfold TsukamotoFIS.evalOutput
  rw [foldl_evalStep_fail fis inputs v fis.rules (0, 0) h]
  rfl

/-- C1: for an assembled engine whose fired rules all resolve their
consequent membership function, the per-output result is the
firing-strength-weighted average of the per-rule crisp values, the crisp
value of a rule being the inverse of its consequent term membership
function at its firing strength, taken over exactly the rules with the
right consequent variable and strictly positive firing strength; and when
no such rule exists the result is the midpoint of the declared range. -/
theorem C1_weighted_average (fis : TsukamotoFIS) (inputs : Inputs) (v : String)
    (fv : FuzzyVariable) (hv : List.lookup v fis.vars = some fv)
    (h : ∀ r ∈ firedRules fis inputs v,
      (fis.lookupMF v r.consequent_term).isSome) :
    (firedRules fis inputs v = [] →
      fis.evalOutput inputs v = some ((fv.range_min + fv.range_max) / 2)) ∧
    (firedRules fis inputs v ≠ [] →
      fis.evalOutput inputs v =
        some (((firedRules fis inputs v).map
            (fun r => crispOf fis inputs v r * r.evaluate inputs)).sum /
          ((firedRules fis inputs v).map (fun r => r.evaluate inputs)).sum)) := by
  constructor
  · intro hS
    rw [evalOutput_eq_empty fis inputs v hS, hv]
    rfl
  · intro hS
    exact evalOutput_eq_sums fis inputs v h hS

/-- Witness for C1: on the credit-risk engine with the all-zero input no
rule fires for the risk variable, and the result is the midpoint of the
declared risk range. -/
theorem C1_weighted_average_witness :
    create_credit_risk_fis.evalOutput zeroInputs "risk" =
      some ((riskVar.range_min + riskVar.range_max) / 2) :=
  (C1_weighted_average create_credit_risk_fis zeroInputs "risk" riskVar
    (by decide) (by decide)).1 rfl

/-- Permuting the rule list leaves the per-output evaluation unchanged:
the fired set is permuted, sums are invariant under permutation, the
error case depends only on membership, and the fallback ignores the
rules. -/
theorem evalOutput_perm (fis : TsukamotoFIS) (rs : List FuzzyRule)
    (inputs : Inputs) (v : String) (hp : fis.rules.Perm rs) :
    TsukamotoFIS.evalOutput { fis with rules := rs } inputs v =
      fis.evalOutput inputs v := by
  have hpf : (fis.rules.filter (ruleFires inputs v)).Perm
      (rs.filter (ruleFires inputs v)) := hp.filter _
  have e1 : firedRules { fis with rules := rs } inputs v =
      rs.filter (ruleFires inputs v) := rfl
  have e2 : firedRules fis inputs v =
      fis.rules.filter (ruleFires inputs v) := rfl
  by_cases hall : ∀ r ∈ fis.rules.filter (ruleFires inputs v),
      (fis.lookupMF v r.consequent_term).isSome
  · by_cases hS : fis.rules.filter (ruleFires inputs v) = []
    · have hS2 : rs.filter (ruleFires inputs v) = [] := by
        rw [hS] at hpf
        exact hpf.symm.eq_nil
      rw [evalOutput_eq_empty _ inputs v (by rw [e1]; exact hS2),
        evalOutput_eq_empty fis inputs v (by rw [e2]; exact hS)]
    · have hS2 : rs.filter (ruleFires inputs v) ≠ [] := by
        intro hh
        rw [hh] at hpf
        exact hS hpf.eq_nil
      have hall2 : ∀ r ∈ firedRules { fis with rules := rs } inputs v,
          (TsukamotoFIS.lookupMF { fis with rules := rs }
            v r.consequent_term).isSome := by
        intro r hr
        rw [e1] at hr
        exact hall r (hpf.mem_iff.mpr hr)
      rw [evalOutput_eq_sums _ inputs v hall2 (by rw [e1]; exact hS2),
        evalOutput_eq_sums fis inputs v hall hS, e1, e2]
      have hc : crispOf { fis with rules := rs } inputs v =
          crispOf fis inputs v := rfl
      rw [hc, (hpf.map (fun r => crispOf fis inputs v r * r.evaluate inputs)).sum_eq,
        (hpf.map (fun r => r.evaluate inputs)).sum_eq]
  · push_neg at hall
    obtain ⟨r, hr, hno⟩ := hall
    have hnone : fis.lookupMF v r.consequent_term = none :=
      Option.not_isSome_iff_eq_none.mp hno
    rw [evalOutput_none_of fis inputs v ⟨r, hr, hnone⟩]
    exact evalOutput_none_of { fis with rules := rs } inputs v
      ⟨r, hpf.mem_iff.mp hr, hnone⟩

/-- C7: evaluating an engine whose rule list has been permuted yields the
same output mapping as the original engine, for every input record. -/
theorem C7_rule_order_invariance (fis : TsukamotoFIS) (rs : List FuzzyRule)
    (inputs : Inputs) (hp : fis.rules.Perm rs) :
    TsukamotoFIS.evaluate { fis with rules := rs } inputs =
      fis.evaluate inputs := by
  unfold TsukamotoFIS.evaluate
  apply List.map_congr_left
  intro v _
  exact congrArg (fun o => (v, o)) (evalOutput_perm fis rs inputs v hp)

/-- Witness for C7: transposing the first two rules of the credit-risk
engine leaves the evaluation at the all-zero input unchanged. -/
theorem C7_rule_order_invariance_witness :
    TsukamotoFIS.evaluate { create_credit_risk_fis with rules := creditRulesSwapped }
      zeroInputs = create_credit_risk_fis.evaluate zeroInputs :=
  C7_rule_order_invariance create_credit_risk_fis creditRulesSwapped zeroInputs
    (by
      rw [show create_credit_risk_fis.rules =
        [rule1, rule2, rule3, rule4, rule5, rule6] from rfl]
      exact List.Perm.swap rule2 rule1 [rule3, rule4, rule5, rule6])

/-- Summing products against nonnegative weights respects pointwise
bounds on the first factor. -/
theorem sum_crisp_bounds (lo hi : ℚ) (g w : FuzzyRule → ℚ) :
    ∀ S : List FuzzyRule, (∀ r ∈ S, 0 ≤ w r) →
      (∀ r ∈ S, lo ≤ g r ∧ g r ≤ hi) →
      lo * (S.map w).sum ≤ (S.map (fun r => g r * w r)).sum ∧
        (S.map (fun r => g r * w r)).sum ≤ hi * (S.map w).sum := by
  intro S
  induction S with
  | nil => intro _ _; simp
  | cons r S ih =>
    intro hw hg
    have htail := ih (fun x hx => hw x (List.mem_cons_of_mem _ hx))
      (fun x hx => hg x (List.mem_cons_of_mem _ hx))
    have hwr := hw r (List.mem_cons_self _ _)
    have hgr := hg r (List.mem_cons_self _ _)
    simp only [List.map_cons, List.sum_cons]
    constructor
    · rw [mul_add]
      exact add_le_add (mul_le_mul_of_nonneg_right hgr.1 hwr) htail.1
    · rw [mul_add]
      exact add_le_add (mul_le_mul_of_nonneg_right hgr.2 hwr) htail.2

/-- The per-output evaluation succeeds and lands between lo and hi as
soon as the range midpoint does and every potentially fired rule yields a
crisp value between lo and hi. -/
theorem evalOutput_bounded (fis : TsukamotoFIS) (inputs : Inputs) (v : String)
    (fv : FuzzyVariable) (lo hi : ℚ)
    (hv : List.lookup v fis.vars = some fv)
    (hmid1 : lo ≤ (fv.range_min + fv.range_max) / 2)
    (hmid2 : (fv.range_min + fv.range_max) / 2 ≤ hi)
    (hcr : ∀ r ∈ fis.rules, ruleFires inputs v r = true →
      ∃ m, fis.lookupMF v r.consequent_term = some m ∧
        lo ≤ m.inverse (r.evaluate inputs) ∧
        m.inverse (r.evaluate inputs) ≤ hi) :
    ∃ q, fis.evalOutput inputs v = some q ∧ lo ≤ q ∧ q ≤ hi := by
  have hsome : ∀ r ∈ firedRules fis inputs v,
      (fis.lookupMF v r.consequent_term).isSome := by
    intro r hr
    have h2 := List.mem_filter.mp hr
    obtain ⟨m, hm, _, _⟩ := hcr r h2.1 h2.2
    rw [hm]
    rfl
  by_cases hS : firedRules fis inputs v = []
  · refine ⟨(fv.range_min + fv.range_max) / 2, ?_, hmid1, hmid2⟩
    rw [evalOutput_eq_empty fis inputs v hS, hv]
    rfl
  · have hw : ∀ r ∈ firedRules fis inputs v, 0 ≤ r.evaluate inputs := by
      intro r hr
      have h2 := List.mem_filter.mp hr
      exact le_of_lt ((ruleFires_iff inputs v r).mp h2.2).2
    have hg : ∀ r ∈ firedRules fis inputs v,
        lo ≤ crispOf fis inputs v r ∧ crispOf fis inputs v r ≤ hi := by
      intro r hr
      have h2 := List.mem_filter.mp hr
      obtain ⟨m, hm, hb1, hb2⟩ := hcr r h2.1 h2.2
      have hc : crispOf fis inputs v r = m.inverse (r.evaluate inputs) := by
        simp [crispOf, hm]
      rw [hc]
      exact ⟨hb1, hb2⟩
    have hsums := sum_crisp_bounds lo hi _ _ (firedRules fis inputs v) hw hg
    have hwpos := fired_weight_sum_pos fis inputs v hS
    refine ⟨((firedRules fis inputs v).map
        (fun r => crispOf fis inputs v r * r.evaluate inputs)).sum /
      ((firedRules fis inputs v).map (fun r => r.evaluate inputs)).sum,
      evalOutput_eq_sums fis inputs v hsome hS, ?_, ?_⟩
    · rw [le_div_iff₀ hwpos]
      exact hsums.1
    · rw [div_le_iff₀ hwpos]
      exact hsums.2

/-- Every rule aimed at the risk variable defuzzifies, for any input
record, to a crisp value between 0 and 100: the three risk terms have
supports inside the declared risk range. -/
theorem risk_rule_crisp_bounds (inputs : Inputs) :
    ∀ r ∈ create_credit_risk_fis.rules, ruleFires inputs "risk" r = true →
      ∃ m, create_credit_risk_fis.lookupMF "risk" r.consequent_term = some m ∧
        0 ≤ m.inverse (r.evaluate inputs) ∧ m.inverse (r.evaluate inputs) ≤ 100 := by
  intro r hr hf
  have hrules : create_credit_risk_fis.rules =
    [rule1, rule2, rule3, rule4, rule5, rule6] := rfl
  rw [hrules] at hr
  have hcv := ((ruleFires_iff inputs "risk" r).mp hf).1
  simp only [List.mem_cons, List.not_mem_nil, or_false] at hr
  rcases hr with rfl | rfl | rfl | rfl | rfl | rfl
  · exact absurd hcv (by decide)
  · have hfs := rule1_antecedent_mem inputs
    have hb := MF.trap_inverse_mem 0 0 30 40 (rule1_antecedent inputs)
      (by norm_num) (by norm_num) (by norm_num) hfs.1 hfs.2
    exact ⟨MF.trap 0 0 30 40, rfl, hb.1, le_trans hb.2 (by norm_num)⟩
  · exact absurd hcv (by decide)
  · have hfs := rule3_antecedent_mem inputs
    have hb := MF.tri_inverse_mem 30 50 70 (rule3_antecedent inputs)
      (by norm_num) (by norm_num) hfs.1 hfs.2
    exact ⟨MF.tri 30 50 70, rfl, le_trans (by norm_num) hb.1,
      le_trans hb.2 (by norm_num)⟩
  · exact absurd hcv (by decide)
  · have hfs := rule5_antecedent_mem inputs
    have hb := MF.trap_inverse_mem 60 70 100 100 (rule5_antecedent inputs)
      (by norm_num) (by norm_num) (by norm_num) hfs.1 hfs.2
    exact ⟨MF.trap 60 70 100 100, rfl, le_trans (by norm_num) hb.1, hb.2⟩

/-- Every rule aimed at the eligibility variable defuzzifies, for any
input record, to a crisp value between 0 and 100. -/
theorem eligibility_rule_crisp_bounds (inputs : Inputs) :
    ∀ r ∈ create_credit_risk_fis.rules, ruleFires inputs "eligibility" r = true →
      ∃ m, create_credit_risk_fis.lookupMF "eligibility" r.consequent_term = some m ∧
        0 ≤ m.inverse (r.evaluate inputs) ∧ m.inverse (r.evaluate inputs) ≤ 100 := by
  intro r hr hf
  have hrules : create_credit_risk_fis.rules =
    [rule1, rule2, rule3, rule4, rule5, rule6] := rfl
  rw [hrules] at hr
  have hcv := ((ruleFires_iff inputs "eligibility" r).mp hf).1
  simp only [List.mem_cons, List.not_mem_nil, or_false] at hr
  rcases hr with rfl | rfl | rfl | rfl | rfl | rfl
  · have hfs := rule1_antecedent_mem inputs
    have hb := MF.trap_inverse_mem 60 70 100 100 (rule1_antecedent inputs)
      (by norm_num) (by norm_num) (by norm_num) hfs.1 hfs.2
    exact ⟨MF.trap 60 70 100 100, rfl, le_trans (by norm_num) hb.1, hb.2⟩
  · exact absurd hcv (by decide)
  · have hfs := rule3_antecedent_mem inputs
    have hb := MF.tri_inverse_mem 30 50 70 (rule3_antecedent inputs)
      (by norm_num) (by norm_num) hfs.1 hfs.2
    exact ⟨MF.tri 30 50 70, rfl, le_trans (by norm_num) hb.1,
      le_trans hb.2 (by norm_num)⟩
  · exact absurd hcv (by decide)
  · have hfs := rule5_antecedent_mem inputs
    have hb := MF.trap_inverse_mem 0 0 30 40 (rule5_antecedent inputs)
      (by norm_num) (by norm_num) (by norm_num) hfs.1 hfs.2
    exact ⟨MF.trap 0 0 30 40, rfl, hb.1, le_trans hb.2 (by norm_num)⟩
  · exact absurd hcv (by decide)

/-- C5: for every income, every nonnegative integer number of dependents
and every credit history rating between 0 and 10, evaluate_credit_risk
returns defined risk and eligibility scores, both between 0 and 100. -/
theorem C5_output_ranges (income dependents credit_history_rating : ℚ)
    (hdep : ∃ n : ℕ, dependents = (n : ℚ))
    (hch0 : 0 ≤ credit_history_rating) (hch1 : credit_history_rating ≤ 10) :
    ∃ r e, evaluate_credit_risk income dependents credit_history_rating =
        (some r, some e) ∧ 0 ≤ r ∧ r ≤ 100 ∧ 0 ≤ e ∧ e ≤ 100 := by
  obtain ⟨r, hr1, hr2, hr3⟩ := evalOutput_bounded create_credit_risk_fis
    (fun s => if s = "income" then income else if s = "dependents" then dependents
      else if s = "credit_history" then credit_history_rating else 0)
    "risk" riskVar 0 100 (by decide)
    (by rw [show riskVar.range_min = 0 from rfl,
      show riskVar.range_max = 100 from rfl]; norm_num)
    (by rw [show riskVar.range_min = 0 from rfl,
      show riskVar.range_max = 100 from rfl]; norm_num)
    (risk_rule_crisp_bounds _)
  obtain ⟨e, he1, he2, he3⟩ := evalOutput_bounded create_credit_risk_fis
    (fun s => if s = "income" then income else if s = "dependents" then dependents
      else if s = "credit_history" then credit_history_rating else 0)
    "eligibility" eligibilityVar 0 100 (by decide)
    (by rw [show eligibilityVar.range_min = 0 from rfl,
      show eligibilityVar.range_max = 100 from rfl]; norm_num)
    (by rw [show eligibilityVar.range_min = 0 from rfl,
      show eligibilityVar.range_max = 100 from rfl]; norm_num)
    (eligibility_rule_crisp_bounds _)
  refine ⟨r, e, ?_, hr2, hr3, he2, he3⟩
  show (create_credit_risk_fis.evalOutput
      (fun s => if s = "income" then income else if s = "dependents" then dependents
        else if s = "credit_history" then credit_history_rating else 0) "risk",
    create_credit_risk_fis.evalOutput
      (fun s => if s = "income" then income else if s = "dependents" then dependents
        else if s = "credit_history" then credit_history_rating else 0) "eligibility") =
    (some r, some e)
  rw [hr1, he1]

/-- Witness for C5: the medium profile 5000000, 2 dependents, rating 5
satisfies the hypotheses, and its two scores are defined and within
range. -/
theorem C5_output_ranges_witness :
    ∃ r e, evaluate_credit_risk 5000000 2 5 = (some r, some e) ∧
      0 ≤ r ∧ r ≤ 100 ∧ 0 ≤ e ∧ e ≤ 100 :=
  C5_output_ranges 5000000 2 5 ⟨2, by norm_num⟩ (by norm_num) (by norm_num)

/-- When exactly one rule fires for an output variable, the result is
that rule crisp value times its weight over its weight. -/
theorem evalOutput_single (fis : TsukamotoFIS) (inputs : Inputs) (v : String)
    (r : FuzzyRule) (hfired : firedRules fis inputs v = [r]) (m : MF)
    (hm : fis.lookupMF v r.consequent_term = some m) :
    fis.evalOutput inputs v =
      some (m.inverse (r.evaluate inputs) * r.evaluate inputs /
        r.evaluate inputs) := by
  have hsome : ∀ r2 ∈ firedRules fis inputs v,
      (fis.lookupMF v r2.consequent_term).isSome := by
    rw [hfired]
    intro r2 hr2
    obtain rfl := List.mem_singleton.mp hr2
    rw [hm]
    rfl
  rw [evalOutput_eq_sums fis inputs v hsome (by rw [hfired]; simp), hfired]
  have hc : crispOf fis inputs v r = m.inverse (r.evaluate inputs) := by
    simp [crispOf, hm]
  simp [hc]

/-- C4: the three end-to-end scenarios of the fixed rule base; the exact
scores are 15 and 85, 50 and 50, 85 and 15, which lie in the claimed
bands: risk below 40 with eligibility at least 70, both scores in the
40 to 70 band (eligibility strictly below 70), and risk at least 70 with
eligibility below 40. -/
theorem C4_end_to_end_scenarios :
    (evaluate_credit_risk 8000000 1 8 = (some 15, some 85) ∧
      (15 : ℚ) < 40 ∧ (70 : ℚ) ≤ 85) ∧
    (evaluate_credit_risk 5000000 2 5 = (some 50, some 50) ∧
      (40 : ℚ) ≤ 50 ∧ (50 : ℚ) ≤ 70 ∧ (40 : ℚ) ≤ 50 ∧ (50 : ℚ) < 70) ∧
    (evaluate_credit_risk 2000000 5 2 = (some 85, some 15) ∧
      (70 : ℚ) ≤ 85 ∧ (15 : ℚ) < 40) := by
  refine ⟨⟨?_, by norm_num, by norm_num⟩, ⟨?_, by norm_num, by norm_num,
    by norm_num, by norm_num⟩, ?_, by norm_num, by norm_num⟩
  · show (create_credit_risk_fis.evalOutput
        (fun s => if s = "income" then 8000000 else if s = "dependents" then 1
          else if s = "credit_history" then 8 else 0) "risk",
      create_credit_risk_fis.evalOutput
        (fun s => if s = "income" then 8000000 else if s = "dependents" then 1
          else if s = "credit_history" then 8 else 0) "eligibility") =
      (some 15, some 85)
    rw [evalOutput_single create_credit_risk_fis
        (fun s => if s = "income" then 8000000 else if s = "dependents" then 1
          else if s = "credit_history" then 8 else 0) "risk" rule2 rfl
        (MF.trap 0 0 30 40) rfl,
      evalOutput_single create_credit_risk_fis
        (fun s => if s = "income" then 8000000 else if s = "dependents" then 1
          else if s = "credit_history" then 8 else 0) "eligibility" rule1 rfl
        (MF.trap 60 70 100 100) rfl,
      show rule2.evaluate
        (fun s => if s = "income" then 8000000 else if s = "dependents" then 1
          else if s = "credit_history" then 8 else 0) = 1 from rfl,
      show rule1.evaluate
        (fun s => if s = "income" then 8000000 else if s = "dependents" then 1
          else if s = "credit_history" then 8 else 0) = 1 from rfl]
    norm_num [MF.inverse]
  · show (create_credit_risk_fis.evalOutput
        (fun s => if s = "income" then 5000000 else if s = "dependents" then 2
          else if s = "credit_history" then 5 else 0) "risk",
      create_credit_risk_fis.evalOutput
        (fun s => if s = "income" then 5000000 else if s = "dependents" then 2
          else if s = "credit_history" then 5 else 0) "eligibility") =
      (some 50, some 50)
    rw [evalOutput_single create_credit_risk_fis
        (fun s => if s = "income" then 5000000 else if s = "dependents" then 2
          else if s = "credit_history" then 5 else 0) "risk" rule4 rfl
        (MF.tri 30 50 70) rfl,
      evalOutput_single create_credit_risk_fis
        (fun s => if s = "income" then 5000000 else if s = "dependents" then 2
          else if s = "credit_history" then 5 else 0) "eligibility" rule3 rfl
        (MF.tri 30 50 70) rfl,
      show rule4.evaluate
        (fun s => if s = "income" then 5000000 else if s = "dependents" then 2
          else if s = "credit_history" then 5 else 0) = 1 from rfl,
      show rule3.evaluate
        (fun s => if s = "income" then 5000000 else if s = "dependents" then 2
          else if s = "credit_history" then 5 else 0) = 1 from rfl]
    norm_num [MF.inverse]
  · show (create_credit_risk_fis.evalOutput
        (fun s => if s = "income" then 2000000 else if s = "dependents" then 5
          else if s = "credit_history" then 2 else 0) "risk",
      create_credit_risk_fis.evalOutput
        (fun s => if s = "income" then 2000000 else if s = "dependents" then 5
          else if s = "credit_history" then 2 else 0) "eligibility") =
      (some 85, some 15)
    rw [evalOutput_single create_credit_risk_fis
        (fun s => if s = "income" then 2000000 else if s = "dependents" then 5
          else if s = "credit_history" then 2 else 0) "risk" rule6 rfl
        (MF.trap 60 70 100 100) rfl,
      evalOutput_single create_credit_risk_fis
        (fun s => if s = "income" then 2000000 else if s = "dependents" then 5
          else if s = "credit_history" then 2 else 0) "eligibility" rule5 rfl
        (MF.trap 0 0 30 40) rfl,
      show rule6.evaluate
        (fun s => if s = "income" then 2000000 else if s = "dependents" then 5
          else if s = "credit_history" then 2 else 0) = 1 from rfl,
      show rule5.evaluate
        (fun s => if s = "income" then 2000000 else if s = "dependents" then 5
          else if s = "credit_history" then 2 else 0) = 1 from rfl]
    norm_num [MF.inverse]

/-- Counterexample for C8: add_rule accepts a rule whose consequent term
does not exist on its consequent variable, so nothing is rejected at
builder time; the failure surfaces only during evaluation, where the
missing lookup poisons the risk aggregation (modelling the KeyError). -/
theorem C8_counterexample :
    (create_credit_risk_fis.add_rule badRule).rules =
      create_credit_risk_fis.rules ++ [badRule] ∧
    (create_credit_risk_fis.add_rule badRule).evalOutput zeroInputs "risk" =
      none := by
  constructor
  · rfl
  · rfl

/-- C8 as amended: the six rules of the built engine do satisfy the
invariant, with each consequent variable present among the variables and
marked as an output and each consequent term present on that variable;
however nothing is validated at builder time, since add_rule appends any
rule unchecked and an invalid rule only fails at evaluation time. -/
theorem C8_consequent_invariant (r : FuzzyRule)
    (hr : r ∈ create_credit_risk_fis.rules) :
    r.consequent_var ∈ create_credit_risk_fis.output_variables ∧
    ∃ fv, List.lookup r.consequent_var create_credit_risk_fis.vars = some fv ∧
      (List.lookup r.consequent_term fv.mfs).isSome := by
  rw [show create_credit_risk_fis.rules =
    [rule1, rule2, rule3, rule4, rule5, rule6] from rfl] at hr
  simp only [List.mem_cons, List.not_mem_nil, or_false] at hr
  rcases hr with rfl | rfl | rfl | rfl | rfl | rfl
  · exact ⟨by decide, eligibilityVar, by decide, by decide⟩
  · exact ⟨by decide, riskVar, by decide, by decide⟩
  · exact ⟨by decide, eligibilityVar, by decide, by decide⟩
  · exact ⟨by decide, riskVar, by decide, by decide⟩
  · exact ⟨by decide, eligibilityVar, by decide, by decide⟩
  · exact ⟨by decide, riskVar, by decide, by decide⟩

/-- Witness for C8 as amended: the invariant instantiated at the first
rule of the engine. -/
theorem C8_consequent_invariant_witness :
    rule1.consequent_var ∈ create_credit_risk_fis.output_variables ∧
    ∃ fv, List.lookup rule1.consequent_var create_credit_risk_fis.vars = some fv ∧
      (List.lookup rule1.consequent_term fv.mfs).isSome :=
  C8_consequent_invariant rule1 (by
    rw [show create_credit_risk_fis.rules =
      [rule1, rule2, rule3, rule4, rule5, rule6] from rfl]
    exact List.mem_cons_self _ _)

/-- Successful branch of generate_membership_function_data. -/
theorem generate_eq_ok (name : String) (n : ℕ) (fv : FuzzyVariable)
    (hv : List.lookup name create_credit_risk_fis.vars = some fv) :
    generate_membership_function_data name n =
      Except.ok ((linspace fv.range_min fv.range_max n).map fun xv =>
        (xv, fv.mfs.map fun q => (q.1, q.2.evaluate xv))) := by
  unfold generate_membership_function_data
  rw [hv]

/-- Failing branch of generate_membership_function_data. -/
theorem generate_eq_error (name : String) (n : ℕ)
    (hv : List.lookup name create_credit_risk_fis.vars = none) :
    generate_membership_function_data name n =
      Except.error ("Variable " ++ name ++ " not found in FIS") := by
  unfold generate_membership_function_data
  rw [hv]

/-- Every variable stored in the credit-risk engine has a nondegenerate
declared range. -/
theorem lookup_var_range (name : String) (fv : FuzzyVariable)
    (h : List.lookup name create_credit_risk_fis.vars = some fv) :
    fv.range_min < fv.range_max := by
  rw [show create_credit_risk_fis.vars =
    [("income", incomeVar), ("dependents", dependentsVar),
     ("credit_history", creditHistoryVar), ("risk", riskVar),
     ("eligibility", eligibilityVar)] from rfl] at h
  simp only [List.lookup] at h
  repeat' split at h
  all_goals cases h
  all_goals decide

/-- The sample list has exactly the requested number of points. -/
theorem linspace_length (a b : ℚ) (n : ℕ) : (linspace a b n).length = n := by
  unfold linspace
  split_ifs with h0 h1
  · simp [h0]
  · simp [h1]
  · rw [List.length_map, List.length_range]

/-- With at least two samples the first sample is the left endpoint. -/
theorem linspace_head (a b : ℚ) (n : ℕ) (h2 : 2 ≤ n) :
    (linspace a b n).head? = some a := by
  unfold linspace
  rw [if_neg (by omega), if_neg (by omega)]
  obtain ⟨m, rfl⟩ : ∃ m, n = m + 1 := ⟨n - 1, by omega⟩
  rw [List.range_succ_eq_map]
  simp

/-- With at least two samples the last sample is the right endpoint. -/
theorem linspace_getLast (a b : ℚ) (n : ℕ) (h2 : 2 ≤ n) :
    (linspace a b n).getLast? = some b := by
  unfold linspace
  rw [if_neg (by omega), if_neg (by omega)]
  have hidx : n - 1 < n := by omega
  have hn1 : ((n : ℚ) - 1) ≠ 0 := by
    have hc : (2 : ℚ) ≤ (n : ℚ) := by exact_mod_cast h2
    intro hh
    linarith
  rw [List.getLast?_eq_getElem?, List.length_map, List.length_range,
    List.getElem?_map, List.getElem?_range hidx, Option.map_some',
    Nat.cast_sub (by omega), Nat.cast_one, mul_div_cancel_left₀ _ hn1]
  norm_num

/-- With a nondegenerate range the samples are strictly increasing. -/
theorem linspace_pairwise (a b : ℚ) (n : ℕ) (hab : a < b) :
    List.Pairwise (· < ·) (linspace a b n) := by
  unfold linspace
  split_ifs with h0 h1
  · simp
  · simp
  · have hn : 2 ≤ n := by omega
    have hstep : 0 < (b - a) / ((n : ℚ) - 1) := by
      apply div_pos (by linarith)
      have hc : (2 : ℚ) ≤ (n : ℚ) := by exact_mod_cast hn
      linarith
    rw [List.pairwise_map]
    refine List.Pairwise.imp ?_ (List.pairwise_lt_range n)
    intro i j hij
    have hc : (i : ℚ) < (j : ℚ) := by exact_mod_cast hij
    have hlt : (i : ℚ) * ((b - a) / ((n : ℚ) - 1)) <
        (j : ℚ) * ((b - a) / ((n : ℚ) - 1)) :=
      mul_lt_mul_of_pos_right hc hstep
    rw [← mul_div_assoc, ← mul_div_assoc] at hlt
    exact add_lt_add_left hlt a

/-- The curve generator fails exactly on names outside the five defined
variables. -/
theorem generate_error_iff (name : String) (n : ℕ) :
    (∃ e, generate_membership_function_data name n = Except.error e) ↔
      ¬(name = "income" ∨ name = "dependents" ∨ name = "credit_history" ∨
        name = "risk" ∨ name = "eligibility") := by
  constructor
  · rintro ⟨e, he⟩ hmem
    rcases hmem with rfl | rfl | rfl | rfl | rfl
    · rw [generate_eq_ok "income" n incomeVar rfl] at he
      exact Except.noConfusion he
    · rw [generate_eq_ok "dependents" n dependentsVar rfl] at he
      exact Except.noConfusion he
    · rw [generate_eq_ok "credit_history" n creditHistoryVar rfl] at he
      exact Except.noConfusion he
    · rw [generate_eq_ok "risk" n riskVar rfl] at he
      exact Except.noConfusion he
    · rw [generate_eq_ok "eligibility" n eligibilityVar rfl] at he
      exact Except.noConfusion he
  · intro hmem
    push_neg at hmem
    obtain ⟨h1, h2, h3, h4, h5⟩ := hmem
    have hv : List.lookup name create_credit_risk_fis.vars = none := by
      rw [show create_credit_risk_fis.vars =
        [("income", incomeVar), ("dependents", dependentsVar),
         ("credit_history", creditHistoryVar), ("risk", riskVar),
         ("eligibility", eligibilityVar)] from rfl]
      simp only [List.lookup]
      repeat' split
      all_goals first
        | rfl
        | (rename_i heq; exact absurd (eq_of_beq heq) (by assumption))
    exact ⟨_, generate_eq_error name n hv⟩

/-- Successful curve generation with at least two samples: the point list
has the requested length, starts at the range minimum, ends at the range
maximum, is strictly increasing in x, and each point carries the degree
of every term of the variable at its x. -/
theorem generate_ok_props (name : String) (fv : FuzzyVariable) (n : ℕ)
    (hv : List.lookup name create_credit_risk_fis.vars = some fv)
    (h2 : 2 ≤ n) :
    ∃ pts, generate_membership_function_data name n = Except.ok pts ∧
      pts.length = n ∧
      (pts.map Prod.fst).head? = some fv.range_min ∧
      (pts.map Prod.fst).getLast? = some fv.range_max ∧
      List.Pairwise (· < ·) (pts.map Prod.fst) ∧
      ∀ p ∈ pts, p.2 = fv.mfs.map fun q => (q.1, q.2.evaluate p.1) := by
  have hrng := lookup_var_range name fv hv
  have hcomp : (Prod.fst ∘ fun xv : ℚ =>
      (xv, fv.mfs.map fun q => (q.1, q.2.evaluate xv))) = id := rfl
  refine ⟨(linspace fv.range_min fv.range_max n).map fun xv =>
    (xv, fv.mfs.map fun q => (q.1, q.2.evaluate xv)),
    generate_eq_ok name n fv hv, ?_, ?_, ?_, ?_, ?_⟩
  · rw [List.length_map, linspace_length]
  · rw [List.map_map, hcomp, List.map_id]
    exact linspace_head _ _ _ h2
  · rw [List.map_map, hcomp, List.map_id]
    exact linspace_getLast _ _ _ h2
  · rw [List.map_map, hcomp, List.map_id]
    exact linspace_pairwise _ _ _ hrng
  · intro p hp
    obtain ⟨xv, _, rfl⟩ := List.mem_map.mp hp
    rfl

/-- Counterexample for C9: with num_points = 1, the numpy-style sampling
returns the single point at the range minimum, so the last x of the
curve for income is 0 and not the range maximum 20000000 that the claim
requires of every successful call. -/
theorem C9_counterexample :
    generate_membership_function_data "income" 1 =
      Except.ok [((0 : ℚ), [("low", (0 : ℚ)), ("medium", (0 : ℚ)),
        ("high", (0 : ℚ))])] ∧
    incomeVar.range_max = 20000000 ∧ (0 : ℚ) ≠ 20000000 := by
  refine ⟨by rfl, by rfl, by norm_num⟩

/-- C9 as amended: the curve generator fails exactly on unknown variable
names; for num_points at least 2 it returns exactly num_points points in
strictly increasing x order, starting at the range minimum and ending at
the range maximum, each point carrying the degree of every term at its
x; and the income curve with 100 points has 100 points spanning 0 to
20000000.  (With num_points = 1 the single point sits at the range
minimum, see the counterexample.) -/
theorem C9_membership_curve :
    (∀ (name : String) (n : ℕ),
      (∃ e, generate_membership_function_data name n = Except.error e) ↔
        ¬(name = "income" ∨ name = "dependents" ∨ name = "credit_history" ∨
          name = "risk" ∨ name = "eligibility")) ∧
    (∀ (name : String) (fv : FuzzyVariable) (n : ℕ),
      List.lookup name create_credit_risk_fis.vars = some fv → 2 ≤ n →
      ∃ pts, generate_membership_function_data name n = Except.ok pts ∧
        pts.length = n ∧
        (pts.map Prod.fst).head? = some fv.range_min ∧
        (pts.map Prod.fst).getLast? = some fv.range_max ∧
        List.Pairwise (· < ·) (pts.map Prod.fst) ∧
        ∀ p ∈ pts, p.2 = fv.mfs.map fun q => (q.1, q.2.evaluate p.1)) ∧
    (∃ pts, generate_membership_function_data "income" 100 = Except.ok pts ∧
      pts.length = 100 ∧ (pts.map Prod.fst).head? = some 0 ∧
      (pts.map Prod.fst).getLast? = some 20000000) := by
  refine ⟨generate_error_iff, generate_ok_props, ?_⟩
  obtain ⟨pts, hok, hlen, hhead, hlast, _, _⟩ :=
    generate_ok_props "income" incomeVar 100 (by decide) (by norm_num)
  exact ⟨pts, hok, hlen, hhead, hlast⟩

/-- Witness for C9 as amended: the risk curve with two samples starts at
0, ends at 100, and both hypotheses of the success contract hold at this
instance. -/
theorem C9_membership_curve_witness :
    ∃ pts, generate_membership_function_data "risk" 2 = Except.ok pts ∧
      pts.length = 2 ∧
      (pts.map Prod.fst).head? = some riskVar.range_min ∧
      (pts.map Prod.fst).getLast? = some riskVar.range_max ∧
      List.Pairwise (· < ·) (pts.map Prod.fst) ∧
      ∀ p ∈ pts, p.2 = riskVar.mfs.map fun q => (q.1, q.2.evaluate p.1) :=
  C9_membership_curve.2.1 "risk" riskVar 2 (by decide) (by norm_num)
